import Mathlib

/-!
Verification of the Huffman-coding module of this repository.

The repository ships the test file for the module (frequency counting,
tree construction, code-table inversion, tree flattening, encode/decode),
but the implementation module itself (the `index` file the tests import)
is absent from the sources. Following the specification, the module is
modelled here definition by definition; the test fixtures present in the
sources pin down the concrete behaviour (tie-breaking, child labels,
traversal order), and every fixture is re-checked against the model below.
-/

namespace Huffman

/-- Modelled from the spec: the error taxonomy of the missing `index`
module (spec section 7): `EmptyInputError` and `MalformedPayloadError`. -/
inductive HuffError where
  | emptyInput
  | malformedPayload
  deriving DecidableEq

/-- Modelled from the spec: a tree node of the missing `index` module.
In the source tests a node is a plain object whose keys `0` and `1` are
each either absent, a bare symbol (a leaf), or a further node; `leaf`
is a bare symbol, `node0`/`node1` are objects with a single child under
key `0` (respectively `1`), and `node` has both children. -/
inductive Node where
  | leaf (c : Char)
  | node0 (t0 : Node)
  | node1 (t1 : Node)
  | node (t0 t1 : Node)
  deriving DecidableEq

/-- Modelled from the spec: one step of the frequency fold — increment
the count of `c` in the association table, inserting it with count 1 at
the end when absent (matching JS object insertion order). -/
def bump : List (Char × Nat) → Char → List (Char × Nat)
  | [], c => [(c, 1)]
  | (k, v) :: rest, c =>
    if k = c then (k, v + 1) :: rest else (k, v) :: bump rest c

/-- Modelled from the spec: `getCharFrequencies` (the spec's `count`,
section 4.1) maps each distinct symbol to its number of occurrences;
the table is an association list in first-occurrence order. -/
def getCharFrequencies (xs : List Char) : List (Char × Nat) :=
  xs.foldl bump []

/-- Modelled from the spec: association-list lookup, the model of JS
object property access used by the frequency and code tables. -/
def lookupTbl {α : Type} : List (Char × α) → Char → Option α
  | [], _ => none
  | (k, v) :: rest, c => if k = c then some v else lookupTbl rest c

/-- Modelled from the spec: the count a frequency table assigns to a
symbol, zero when the symbol is absent. -/
def freqOf (tbl : List (Char × Nat)) (c : Char) : Nat :=
  (lookupTbl tbl c).getD 0

/-- Modelled from the spec: remove the node of smallest weight from the
worklist, stable by insertion order (the earliest node wins ties), and
return it with the remaining worklist. -/
def popMin : List (Node × Nat) → Option ((Node × Nat) × List (Node × Nat))
  | [] => none
  | x :: xs =>
    match popMin xs with
    | none => some (x, [])
    | some (m, rest) => if x.2 ≤ m.2 then some (x, xs) else some (m, x :: rest)

/-- Modelled from the spec: the merge loop of `createTree` (spec section
4.2). While more than one node remains, the two smallest-weight nodes are
removed (stable by insertion order), the lower-weight one becomes child
`0` and the other child `1` of a new internal node whose weight is their
sum, and the new node is appended to the worklist. The fuel argument is
set to the worklist length by the caller, which suffices since each round
shortens the worklist by one. -/
def buildLoop : Nat → List (Node × Nat) → Option Node
  | _, [] => none
  | _, [x] => some x.1
  | 0, _ :: _ :: _ => none
  | fuel + 1, x1 :: x2 :: xs =>
    match popMin (x1 :: x2 :: xs) with
    | none => none
    | some (a, l1) =>
      match popMin l1 with
      | none => none
      | some (b, l2) => buildLoop fuel (l2 ++ [(Node.node a.1 b.1, a.2 + b.2)])

/-- Modelled from the spec: `createTree` (the spec's `build`, section
4.2) builds the weighted tree from the frequency-table entries; an empty
table is the `EmptyInputError` contract violation (spec section 7). -/
def createTree (entries : List (Char × Nat)) : Except HuffError Node :=
  let wl := entries.map (fun e => (Node.leaf e.1, e.2))
  match buildLoop wl.length wl with
  | none => .error .emptyInput
  | some t => .ok t

/-- Modelled from the spec: the symbols at the leaves of a tree, in
depth-first traversal order (child `0` before child `1`). -/
def syms : Node → List Char
  | .leaf c => [c]
  | .node0 a => syms a
  | .node1 b => syms b
  | .node a b => syms a ++ syms b

/-- Modelled from the spec: the traversal of `invertTree` (the spec's
`invert`, section 4.3) — descend depth-first accumulating the path,
appending `0` when entering child `0` and `1` when entering child `1`,
and record the accumulated path at each leaf. -/
def invertAux : Node → List Char → List (Char × List Char)
  | .leaf c, path => [(c, path)]
  | .node0 a, path => invertAux a (path ++ ['0'])
  | .node1 b, path => invertAux b (path ++ ['1'])
  | .node a b, path => invertAux a (path ++ ['0']) ++ invertAux b (path ++ ['1'])

/-- Modelled from the spec: `invertTree` derives the code table of a
tree, mapping each leaf symbol to its root-to-leaf path. -/
def invertTree (t : Node) : List (Char × List Char) :=
  invertAux t []

/-- Structural restatement of `invertAux` used for proofs: codes are
built by prepending the child label on the way out of the recursion. -/
def codesOf : Node → List (Char × List Char)
  | .leaf c => [(c, [])]
  | .node0 a => (codesOf a).map (fun e => (e.1, '0' :: e.2))
  | .node1 b => (codesOf b).map (fun e => (e.1, '1' :: e.2))
  | .node a b =>
    (codesOf a).map (fun e => (e.1, '0' :: e.2)) ++
      (codesOf b).map (fun e => (e.1, '1' :: e.2))

/-- Modelled from the spec: `convertToArray` (the spec's `flatten`,
section 4.4) produces one inner sequence per depth-1 subtree of the
root, listing that subtree's leaves in traversal order. -/
def convertToArray : Node → List (List Char)
  | .leaf c => [[c]]
  | .node0 a => [syms a]
  | .node1 b => [syms b]
  | .node a b => [syms a, syms b]

/-- Modelled from the spec: the code table the encoder actually uses —
`invertTree` of the built tree, except that a single-leaf root is
special-cased to a one-bit code (spec sections 3 and 4.2). -/
def codeTableFor : Node → List (Char × List Char)
  | .leaf c => [(c, ['0'])]
  | .node0 a => invertTree (.node0 a)
  | .node1 b => invertTree (.node1 b)
  | .node a b => invertTree (.node a b)

/-- Modelled from the spec: serialization of the tree half of the
payload. The spec leaves the tree description implementation-defined
(section 9); the model uses a positional prefix form (a tag character
followed by the children, a leaf carrying its symbol verbatim) that a
decoder can parse back unambiguously. -/
def ser : Node → List Char
  | .leaf c => ['L', c]
  | .node0 a => 'A' :: ser a
  | .node1 b => 'B' :: ser b
  | .node a b => 'N' :: (ser a ++ ser b)

/-- Modelled from the spec: parser for the serialized tree, consuming a
prefix of the character list and returning the tree with the unconsumed
remainder. Fuel is set to the input length by the caller. -/
def parseNode : Nat → List Char → Option (Node × List Char)
  | 0, _ => none
  | _ + 1, [] => none
  | fuel + 1, tag :: rest =>
    if tag = 'L' then
      match rest with
      | c :: rest1 => some (.leaf c, rest1)
      | [] => none
    else if tag = 'A' then
      match parseNode fuel rest with
      | none => none
      | some (a, rest1) => some (.node0 a, rest1)
    else if tag = 'B' then
      match parseNode fuel rest with
      | none => none
      | some (b, rest1) => some (.node1 b, rest1)
    else if tag = 'N' then
      match parseNode fuel rest with
      | none => none
      | some (a, rest1) =>
        match parseNode fuel rest1 with
        | none => none
        | some (b, rest2) => some (.node a b, rest2)
    else none

/-- Modelled from the spec: decode one symbol — walk from the given node
consuming one bit per internal node, `0` selecting child `0` and `1`
child `1`; reaching a leaf yields its symbol and the unconsumed bits; a
missing child or exhausted input is a failure. -/
def decodeSym : Node → List Char → Option (Char × List Char)
  | .leaf c, bits => some (c, bits)
  | .node0 _, [] => none
  | .node1 _, [] => none
  | .node _ _, [] => none
  | .node0 a, b :: rest => if b = '0' then decodeSym a rest else none
  | .node1 a, b :: rest => if b = '1' then decodeSym a rest else none
  | .node a0 a1, b :: rest =>
    if b = '0' then decodeSym a0 rest
    else if b = '1' then decodeSym a1 rest
    else none

/-- Modelled from the spec: the decode loop — repeatedly walk from the
root, emitting a symbol and restarting at the root at each leaf, until
the bit-string is exhausted. Fuel is set to the bit-string length by the
caller, which suffices since every symbol consumes at least one bit under
an internal root. -/
def decodeLoop (root : Node) : Nat → List Char → Option (List Char)
  | _, [] => some []
  | 0, _ :: _ => none
  | fuel + 1, b :: rest =>
    match decodeSym root (b :: rest) with
    | none => none
    | some (c, rest1) =>
      match decodeLoop root fuel rest1 with
      | none => none
      | some cs => some (c :: cs)

/-- Modelled from the spec: run the decode loop with adequate fuel and
surface failure as `MalformedPayloadError`. -/
def decodeLoopRun (root : Node) (bits : List Char) : Except HuffError (List Char) :=
  match decodeLoop root bits.length bits with
  | some cs => .ok cs
  | none => .error .malformedPayload

/-- Modelled from the spec: decode the bit-string half of the payload
against the reconstructed tree. A single-leaf root mirrors the encoder's
one-bit special case: every `0` bit decodes to the unique symbol. -/
def decodePayloadBits (root : Node) (bits : List Char) : Except HuffError (List Char) :=
  match root with
  | .leaf c =>
    if bits.all (fun b => b == '0') then .ok (bits.map (fun _ => c))
    else .error .malformedPayload
  | .node0 a => decodeLoopRun (.node0 a) bits
  | .node1 b => decodeLoopRun (.node1 b) bits
  | .node a b => decodeLoopRun (.node a b) bits

/-- Modelled from the spec: `encode` (section 4.5) — count frequencies,
build the tree, derive the code table, concatenate the codes of the
input characters in order, and join serialized tree and bit-string with
the `;` separator. -/
def encode (s : String) : Except HuffError String :=
  let xs := s.toList
  match createTree (getCharFrequencies xs) with
  | .error e => .error e
  | .ok t =>
    let tbl := codeTableFor t
    let bits := xs.flatMap (fun c => (lookupTbl tbl c).getD [])
    .ok (String.mk (ser t ++ ';' :: bits))

/-- Modelled from the spec: `decode` (section 4.5) — reconstruct the
tree from the front of the payload, expect the `;` separator, and walk
the remaining bit-string; any failure is `MalformedPayloadError`. -/
def decode (p : String) : Except HuffError String :=
  let l := p.toList
  match parseNode l.length l with
  | none => .error .malformedPayload
  | some (t, rest) =>
    match rest with
    | ';' :: bits =>
      match decodePayloadBits t bits with
      | .ok cs => .ok (String.mk cs)
      | .error e => .error e
    | _ => .error .malformedPayload

/-- Specification-side predicate: `p` is the label path from the root of
`t` to a leaf holding `c`. -/
inductive LeafPath : Node → List Char → Char → Prop
  | leaf (c : Char) : LeafPath (.leaf c) [] c
  | n0 {a p c} : LeafPath a p c → LeafPath (.node0 a) ('0' :: p) c
  | n1 {b p c} : LeafPath b p c → LeafPath (.node1 b) ('1' :: p) c
  | nl {a b p c} : LeafPath a p c → LeafPath (.node a b) ('0' :: p) c
  | nr {a b p c} : LeafPath b p c → LeafPath (.node a b) ('1' :: p) c

/-- Specification-side predicate: the bit-string decomposes completely
into consecutive root-to-leaf paths of `t` spelling out `cs`. -/
inductive Decodes (t : Node) : List Char → List Char → Prop
  | nil : Decodes t [] []
  | cons {p c rest cs} :
      LeafPath t p c → Decodes t rest cs → Decodes t (p ++ rest) (c :: cs)

/-- Recognizer for leaf roots, used to state theorems decidably. -/
def isLeaf : Node → Bool
  | .leaf _ => true
  | _ => false

/-- All leaf symbols across a worklist, in worklist order. -/
def symsAll (l : List (Node × Nat)) : List Char :=
  l.flatMap (fun p => syms p.1)

theorem keys_bump (l : List (Char × Nat)) (c : Char) :
    (bump l c).map Prod.fst =
      if c ∈ l.map Prod.fst then l.map Prod.fst else l.map Prod.fst ++ [c] := by
  induction l with
  | nil => simp [bump]
  | cons x rest ih =>
    obtain ⟨k, v⟩ := x
    by_cases hk : k = c
    · subst hk
      simp [bump]
    · by_cases hc : c ∈ rest.map Prod.fst <;>
        simp [bump, hk, ih, hc, Ne.symm hk]

theorem mem_keys_bump_self (l : List (Char × Nat)) (c : Char) :
    c ∈ (bump l c).map Prod.fst := by
  rw [keys_bump]
  by_cases hc : c ∈ l.map Prod.fst <;> simp [hc]

theorem mem_keys_bump_of (l : List (Char × Nat)) (c d : Char)
    (h : d ∈ l.map Prod.fst) : d ∈ (bump l c).map Prod.fst := by
  rw [keys_bump]
  by_cases hc : c ∈ l.map Prod.fst <;> simp [hc, h]

theorem nodup_keys_bump (l : List (Char × Nat)) (c : Char)
    (h : (l.map Prod.fst).Nodup) : ((bump l c).map Prod.fst).Nodup := by
  rw [keys_bump]
  by_cases hc : c ∈ l.map Prod.fst
  · simpa [hc]
  · simp [hc, List.nodup_append, h]

theorem mem_keys_foldl (xs : List Char) :
    ∀ (acc : List (Char × Nat)) (c : Char),
      c ∈ acc.map Prod.fst ∨ c ∈ xs → c ∈ (xs.foldl bump acc).map Prod.fst := by
  induction xs with
  | nil =>
    intro acc c h
    simpa using h.resolve_right (by simp)
  | cons x xs ih =>
    intro acc c h
    simp only [List.foldl_cons]
    apply ih
    rcases h with h | h
    · exact Or.inl (mem_keys_bump_of acc x c h)
    · rcases List.mem_cons.mp h with rfl | h
      · exact Or.inl (mem_keys_bump_self acc c)
      · exact Or.inr h

theorem mem_keys_getCharFrequencies {xs : List Char} {c : Char} (h : c ∈ xs) :
    c ∈ (getCharFrequencies xs).map Prod.fst :=
  mem_keys_foldl xs [] c (Or.inr h)

theorem nodup_keys_getCharFrequencies (xs : List Char) :
    ((getCharFrequencies xs).map Prod.fst).Nodup := by
  suffices h : ∀ acc : List (Char × Nat), (acc.map Prod.fst).Nodup →
      ((xs.foldl bump acc).map Prod.fst).Nodup from h [] (by simp)
  induction xs with
  | nil => intro acc h; simpa using h
  | cons x xs ih => intro acc h; exact ih _ (nodup_keys_bump _ _ h)

theorem getCharFrequencies_ne_nil {xs : List Char} (h : xs ≠ []) :
    getCharFrequencies xs ≠ [] := by
  match xs, h with
  | x :: xs, _ =>
    intro hc
    have h2 : x ∈ (getCharFrequencies (x :: xs)).map Prod.fst :=
      mem_keys_getCharFrequencies (List.mem_cons_self x xs)
    rw [hc] at h2
    simp at h2

theorem freqOf_nil (c : Char) : freqOf [] c = 0 := rfl

theorem freqOf_bump (l : List (Char × Nat)) (x c : Char) :
    freqOf (bump l x) c = freqOf l c + if x = c then 1 else 0 := by
  induction l with
  | nil =>
    by_cases h : x = c <;> simp [bump, freqOf, lookupTbl, h]
  | cons e rest ih =>
    obtain ⟨k, v⟩ := e
    by_cases hk : k = x
    · subst hk
      by_cases hc : k = c <;> simp [bump, freqOf, lookupTbl, hc]
    · by_cases hc : k = c
      · subst hc
        have hx : ¬ x = k := fun h => hk h.symm
        simp [bump, hk, freqOf, lookupTbl, hx]
      · simp [bump, hk, freqOf, lookupTbl, hc]
        exact ih

theorem freqOf_foldl (xs : List Char) :
    ∀ (acc : List (Char × Nat)) (c : Char),
      freqOf (xs.foldl bump acc) c = freqOf acc c + xs.count c := by
  induction xs with
  | nil => simp
  | cons x xs ih =>
    intro acc c
    simp only [List.foldl_cons, ih, freqOf_bump, List.count_cons]
    by_cases h : x = c
    · simp [h]
      omega
    · simp [h]

theorem freqOf_getCharFrequencies (xs : List Char) (c : Char) :
    freqOf (getCharFrequencies xs) c = xs.count c := by
  simpa [getCharFrequencies, freqOf_nil] using freqOf_foldl xs [] c

theorem lookupTbl_mem {α : Type} :
    ∀ (l : List (Char × α)) (c : Char) (v : α),
      lookupTbl l c = some v → (c, v) ∈ l := by
  intro l
  induction l with
  | nil => intro c v h; simp [lookupTbl] at h
  | cons e rest ih =>
    intro c v h
    obtain ⟨k, w⟩ := e
    by_cases hk : k = c
    · subst hk
      simp [lookupTbl] at h
      subst h
      exact List.mem_cons_self _ _
    · simp [lookupTbl, hk] at h
      exact List.mem_cons_of_mem _ (ih c v h)

theorem lookupTbl_isSome {α : Type} :
    ∀ (l : List (Char × α)) (c : Char), c ∈ l.map Prod.fst →
      ∃ v, lookupTbl l c = some v := by
  intro l
  induction l with
  | nil => intro c h; simp at h
  | cons e rest ih =>
    intro c h
    obtain ⟨k, w⟩ := e
    by_cases hk : k = c
    · exact ⟨w, by simp [lookupTbl, hk]⟩
    · rw [List.map_cons, List.mem_cons] at h
      rcases h with h | h
      · exact absurd h.symm hk
      · obtain ⟨v, hv⟩ := ih c h
        exact ⟨v, by simp [lookupTbl, hk, hv]⟩

theorem popMin_isSome (x : Node × Nat) (xs : List (Node × Nat)) :
    ∃ m rest, popMin (x :: xs) = some (m, rest) := by
  induction xs generalizing x with
  | nil => exact ⟨x, [], rfl⟩
  | cons y ys ih =>
    obtain ⟨m, rest, hm⟩ := ih y
    by_cases h : x.2 ≤ m.2
    · refine ⟨x, y :: ys, ?_⟩
      rw [popMin, hm]
      simp [h]
    · refine ⟨m, x :: rest, ?_⟩
      rw [popMin, hm]
      simp [h]

theorem popMin_perm :
    ∀ {l : List (Node × Nat)} {m rest}, popMin l = some (m, rest) →
      l.Perm (m :: rest) := by
  intro l
  induction l with
  | nil => intro m rest h; simp [popMin] at h
  | cons x xs ih =>
    intro m rest h
    cases xs with
    | nil =>
      simp [popMin] at h
      obtain ⟨rfl, rfl⟩ := h
      exact List.Perm.refl _
    | cons y ys =>
      obtain ⟨m', rest', hm⟩ := popMin_isSome y ys
      rw [popMin, hm] at h
      by_cases hle : x.2 ≤ m'.2
      · simp [hle] at h
        obtain ⟨rfl, rfl⟩ := h
        exact List.Perm.refl _
      · simp [hle] at h
        obtain ⟨rfl, rfl⟩ := h
        exact ((ih hm).cons x).trans (List.Perm.swap _ _ _)

theorem popMin_min :
    ∀ {l : List (Node × Nat)} {m rest}, popMin l = some (m, rest) →
      ∀ e ∈ l, m.2 ≤ e.2 := by
  intro l
  induction l with
  | nil => intro m rest h; simp [popMin] at h
  | cons x xs ih =>
    intro m rest h e he
    cases xs with
    | nil =>
      simp [popMin] at h
      obtain ⟨rfl, rfl⟩ := h
      simp at he
      subst he
      exact le_refl _
    | cons y ys =>
      obtain ⟨m', rest', hm⟩ := popMin_isSome y ys
      rw [popMin, hm] at h
      by_cases hle : x.2 ≤ m'.2
      · simp [hle] at h
        obtain ⟨rfl, rfl⟩ := h
        rcases List.mem_cons.mp he with rfl | he
        · exact le_refl _
        · exact le_trans hle (ih hm e he)
      · simp [hle] at h
        obtain ⟨rfl, rfl⟩ := h
        rcases List.mem_cons.mp he with rfl | he
        · omega
        · exact ih hm e he

theorem popMin_length {l : List (Node × Nat)} {m rest}
    (h : popMin l = some (m, rest)) : l.length = rest.length + 1 := by
  simpa using (popMin_perm h).length_eq

theorem symsAll_perm {l l' : List (Node × Nat)} (h : l.Perm l') :
    (symsAll l).Perm (symsAll l') :=
  List.Perm.flatMap_right _ h

theorem symsAll_cons (x : Node × Nat) (l : List (Node × Nat)) :
    symsAll (x :: l) = syms x.1 ++ symsAll l := by
  simp [symsAll]

theorem symsAll_append (l l' : List (Node × Nat)) :
    symsAll (l ++ l') = symsAll l ++ symsAll l' := by
  simp [symsAll]

theorem symsAll_leaves (entries : List (Char × Nat)) :
    symsAll (entries.map (fun e => (Node.leaf e.1, e.2))) = entries.map Prod.fst := by
  induction entries with
  | nil => rfl
  | cons e es ih => simp [symsAll, syms] at ih ⊢; exact ih

theorem buildLoop_cons2 (fuel : Nat) (x1 x2 : Node × Nat) (xs : List (Node × Nat))
    {a b : Node × Nat} {l1 l2 : List (Node × Nat)}
    (ha : popMin (x1 :: x2 :: xs) = some (a, l1)) (hb : popMin l1 = some (b, l2)) :
    buildLoop (fuel + 1) (x1 :: x2 :: xs) =
      buildLoop fuel (l2 ++ [(Node.node a.1 b.1, a.2 + b.2)]) := by
  conv_lhs => rw [buildLoop]
  rw [ha]
  simp only
  rw [hb]

theorem buildLoop_syms :
    ∀ (fuel : Nat) (l : List (Node × Nat)) (t : Node), buildLoop fuel l = some t →
      (syms t).Perm (symsAll l) := by
  intro fuel
  induction fuel with
  | zero =>
    intro l t h
    match l with
    | [] => simp [buildLoop] at h
    | [x] =>
      simp [buildLoop] at h
      subst h
      simp [symsAll]
    | x1 :: x2 :: xs => simp [buildLoop] at h
  | succ fuel ih =>
    intro l t h
    match l with
    | [] => simp [buildLoop] at h
    | [x] =>
      simp [buildLoop] at h
      subst h
      simp [symsAll]
    | x1 :: x2 :: xs =>
      obtain ⟨a, l1, ha⟩ := popMin_isSome x1 (x2 :: xs)
      have hlen1 := popMin_length ha
      cases l1 with
      | nil => simp at hlen1
      | cons y ys =>
        obtain ⟨b, l2, hb⟩ := popMin_isSome y ys
        rw [buildLoop_cons2 fuel x1 x2 xs ha hb] at h
        have hrec := ih _ _ h
        have e1 : symsAll (l2 ++ [(Node.node a.1 b.1, a.2 + b.2)]) =
            symsAll l2 ++ (syms a.1 ++ syms b.1) := by
          simp [symsAll_append, symsAll_cons, syms, symsAll]
        have p1 : (symsAll (x1 :: x2 :: xs)).Perm (syms a.1 ++ symsAll (y :: ys)) := by
          have := symsAll_perm (popMin_perm ha)
          simpa [symsAll_cons] using this
        have p2 : (symsAll (y :: ys)).Perm (syms b.1 ++ symsAll l2) := by
          have := symsAll_perm (popMin_perm hb)
          simpa [symsAll_cons] using this
        rw [e1] at hrec
        refine hrec.trans ?_
        have s1 : (symsAll l2 ++ (syms a.1 ++ syms b.1)).Perm
            ((syms a.1 ++ syms b.1) ++ symsAll l2) := List.perm_append_comm
        have s2 : ((syms a.1 ++ syms b.1) ++ symsAll l2).Perm
            (syms a.1 ++ symsAll (y :: ys)) := by
          rw [List.append_assoc]
          exact (p2.symm).append_left _
        exact (s1.trans s2).trans p1.symm

theorem buildLoop_isSome :
    ∀ (fuel : Nat) (l : List (Node × Nat)), l ≠ [] → l.length ≤ fuel + 1 →
      ∃ t, buildLoop fuel l = some t := by
  intro fuel
  induction fuel with
  | zero =>
    intro l hne hlen
    match l with
    | [] => exact absurd rfl hne
    | [x] => exact ⟨x.1, rfl⟩
    | x1 :: x2 :: xs => simp at hlen
  | succ fuel ih =>
    intro l hne hlen
    match l with
    | [] => exact absurd rfl hne
    | [x] => exact ⟨x.1, rfl⟩
    | x1 :: x2 :: xs =>
      obtain ⟨a, l1, ha⟩ := popMin_isSome x1 (x2 :: xs)
      have hl1 := popMin_length ha
      cases l1 with
      | nil => simp at hl1
      | cons y ys =>
        obtain ⟨b, l2, hb⟩ := popMin_isSome y ys
        have hl2 := popMin_length hb
        obtain ⟨t, ht⟩ := ih (l2 ++ [(Node.node a.1 b.1, a.2 + b.2)]) (by simp)
          (by simp at hl1 hl2 hlen ⊢; omega)
        exact ⟨t, by rw [buildLoop_cons2 fuel x1 x2 xs ha hb]; exact ht⟩

theorem buildLoop_node :
    ∀ (fuel : Nat) (l : List (Node × Nat)) (t : Node), 2 ≤ l.length →
      buildLoop fuel l = some t → ∃ a b, t = Node.node a b := by
  intro fuel
  induction fuel with
  | zero =>
    intro l t hlen h
    match l with
    | [] => simp at hlen
    | [x] => simp at hlen
    | x1 :: x2 :: xs => simp [buildLoop] at h
  | succ fuel ih =>
    intro l t hlen h
    match l with
    | [] => simp at hlen
    | [x] => simp at hlen
    | x1 :: x2 :: xs =>
      obtain ⟨a, l1, ha⟩ := popMin_isSome x1 (x2 :: xs)
      have hl1 := popMin_length ha
      cases l1 with
      | nil => simp at hl1
      | cons y ys =>
        obtain ⟨b, l2, hb⟩ := popMin_isSome y ys
        rw [buildLoop_cons2 fuel x1 x2 xs ha hb] at h
        cases l2 with
        | nil =>
          simp [buildLoop] at h
          exact ⟨a.1, b.1, h.symm⟩
        | cons z zs =>
          exact ih _ _ (by simp) h

theorem createTree_ok {entries : List (Char × Nat)} (hne : entries ≠ []) :
    ∃ t, createTree entries = .ok t ∧ (syms t).Perm (entries.map Prod.fst) := by
  obtain ⟨t, ht⟩ := buildLoop_isSome entries.length
    (entries.map (fun e => (Node.leaf e.1, e.2))) (by simpa) (by simp)
  refine ⟨t, ?_, ?_⟩
  · simp only [createTree, List.length_map]
    rw [ht]
  · exact (buildLoop_syms _ _ _ ht).trans (by rw [symsAll_leaves])

theorem createTree_ok_elim {entries : List (Char × Nat)} {t : Node}
    (h : createTree entries = .ok t) :
    buildLoop entries.length (entries.map (fun e => (Node.leaf e.1, e.2))) = some t := by
  simp only [createTree, List.length_map] at h
  cases hb : buildLoop entries.length (entries.map (fun e => (Node.leaf e.1, e.2))) with
  | none => rw [hb] at h; cases h
  | some t' => rw [hb] at h; cases h; rfl

theorem createTree_node {entries : List (Char × Nat)} {t : Node}
    (h2 : 2 ≤ entries.length) (h : createTree entries = .ok t) :
    ∃ a b, t = Node.node a b :=
  buildLoop_node entries.length _ t (by simpa) (createTree_ok_elim h)

theorem invertAux_eq (t : Node) :
    ∀ path, invertAux t path = (codesOf t).map (fun e => (e.1, path ++ e.2)) := by
  induction t with
  | leaf c => intro path; simp [invertAux, codesOf]
  | node0 a ih =>
    intro path
    simp [invertAux, codesOf, ih, List.map_map, Function.comp_def,
      List.append_assoc]
  | node1 b ih =>
    intro path
    simp [invertAux, codesOf, ih, List.map_map, Function.comp_def,
      List.append_assoc]
  | node a b iha ihb =>
    intro path
    simp [invertAux, codesOf, iha, ihb, List.map_map, Function.comp_def,
      List.append_assoc]

theorem invertTree_eq (t : Node) : invertTree t = codesOf t := by
  simpa using invertAux_eq t []

theorem keys_codesOf (t : Node) : (codesOf t).map Prod.fst = syms t := by
  induction t <;> simp [codesOf, syms, List.map_map, Function.comp_def, *]

theorem codesOf_code_ne_nil {t : Node} (h : isLeaf t = false) :
    ∀ e ∈ codesOf t, e.2 ≠ [] := by
  cases t with
  | leaf c => simp [isLeaf] at h
  | node0 a =>
    intro e he
    simp only [codesOf, List.mem_map] at he
    obtain ⟨x, _, rfl⟩ := he
    simp
  | node1 b =>
    intro e he
    simp only [codesOf, List.mem_map] at he
    obtain ⟨x, _, rfl⟩ := he
    simp
  | node a b =>
    intro e he
    simp only [codesOf, List.mem_append, List.mem_map] at he
    rcases he with ⟨x, _, rfl⟩ | ⟨x, _, rfl⟩ <;> simp

theorem isPrefixOf_cons_cons (a b : Char) (p q : List Char) :
    (a :: p).isPrefixOf (b :: q) = ((a == b) && p.isPrefixOf q) := rfl

theorem codesOf_pairwise (t : Node) :
    List.Pairwise (fun e1 e2 : Char × List Char =>
      e1.2.isPrefixOf e2.2 = false ∧ e2.2.isPrefixOf e1.2 = false) (codesOf t) := by
  have h00 : ('0' == '0') = true := rfl
  have h11 : ('1' == '1') = true := rfl
  have h01 : ('0' == '1') = false := rfl
  have h10 : ('1' == '0') = false := rfl
  induction t with
  | leaf c => simp [codesOf]
  | node0 a ih =>
    simp only [codesOf, List.pairwise_map]
    refine ih.imp ?_
    intro e1 e2 h
    simpa [isPrefixOf_cons_cons, h00] using h
  | node1 b ih =>
    simp only [codesOf, List.pairwise_map]
    refine ih.imp ?_
    intro e1 e2 h
    simpa [isPrefixOf_cons_cons, h11] using h
  | node a b iha ihb =>
    simp only [codesOf]
    rw [List.pairwise_append]
    refine ⟨?_, ?_, ?_⟩
    · rw [List.pairwise_map]
      refine iha.imp ?_
      intro e1 e2 h
      simpa [isPrefixOf_cons_cons, h00] using h
    · rw [List.pairwise_map]
      refine ihb.imp ?_
      intro e1 e2 h
      simpa [isPrefixOf_cons_cons, h11] using h
    · intro e1 h1 e2 h2
      simp only [List.mem_map] at h1 h2
      obtain ⟨x, _, rfl⟩ := h1
      obtain ⟨y, _, rfl⟩ := h2
      exact ⟨by simp [isPrefixOf_cons_cons, h01], by simp [isPrefixOf_cons_cons, h10]⟩

theorem mem_codesOf_leafPath :
    ∀ {t : Node} {c : Char} {p : List Char}, (c, p) ∈ codesOf t → LeafPath t p c := by
  intro t
  induction t with
  | leaf c0 =>
    intro c p h
    simp [codesOf] at h
    obtain ⟨rfl, rfl⟩ := h
    exact .leaf _
  | node0 a ih =>
    intro c p h
    simp only [codesOf, List.mem_map] at h
    obtain ⟨⟨c1, q⟩, hq, heq⟩ := h
    simp at heq
    obtain ⟨rfl, rfl⟩ := heq
    exact .n0 (ih hq)
  | node1 b ih =>
    intro c p h
    simp only [codesOf, List.mem_map] at h
    obtain ⟨⟨c1, q⟩, hq, heq⟩ := h
    simp at heq
    obtain ⟨rfl, rfl⟩ := heq
    exact .n1 (ih hq)
  | node a b iha ihb =>
    intro c p h
    simp only [codesOf, List.mem_append, List.mem_map] at h
    rcases h with ⟨⟨c1, q⟩, hq, heq⟩ | ⟨⟨c1, q⟩, hq, heq⟩ <;>
      (simp at heq; obtain ⟨rfl, rfl⟩ := heq)
    · exact .nl (iha hq)
    · exact .nr (ihb hq)

theorem leafPath_decodeSym {t : Node} {p : List Char} {c : Char}
    (h : LeafPath t p c) : ∀ rest, decodeSym t (p ++ rest) = some (c, rest) := by
  induction h with
  | leaf c => intro rest; rfl
  | n0 h ih => intro rest; simp [decodeSym, ih]
  | n1 h ih => intro rest; simp [decodeSym, ih]
  | nl h ih => intro rest; simp [decodeSym, ih]
  | nr h ih => intro rest; simp [decodeSym, ih]

theorem decodeSym_leafPath :
    ∀ (t : Node) (bits : List Char) (c : Char) (rest : List Char),
      decodeSym t bits = some (c, rest) →
      ∃ p, bits = p ++ rest ∧ LeafPath t p c := by
  intro t
  induction t with
  | leaf c0 =>
    intro bits c rest h
    simp [decodeSym] at h
    obtain ⟨rfl, rfl⟩ := h
    exact ⟨[], rfl, .leaf _⟩
  | node0 a ih =>
    intro bits c rest h
    match bits with
    | [] => simp [decodeSym] at h
    | b :: bs =>
      by_cases hb : b = '0'
      · subst hb
        simp [decodeSym] at h
        obtain ⟨p, rfl, hp⟩ := ih bs c rest h
        exact ⟨'0' :: p, rfl, .n0 hp⟩
      · simp [decodeSym, hb] at h
  | node1 a ih =>
    intro bits c rest h
    match bits with
    | [] => simp [decodeSym] at h
    | b :: bs =>
      by_cases hb : b = '1'
      · subst hb
        simp [decodeSym] at h
        obtain ⟨p, rfl, hp⟩ := ih bs c rest h
        exact ⟨'1' :: p, rfl, .n1 hp⟩
      · simp [decodeSym, hb] at h
  | node a0 a1 ih0 ih1 =>
    intro bits c rest h
    match bits with
    | [] => simp [decodeSym] at h
    | b :: bs =>
      by_cases hb0 : b = '0'
      · subst hb0
        simp [decodeSym] at h
        obtain ⟨p, rfl, hp⟩ := ih0 bs c rest h
        exact ⟨'0' :: p, rfl, .nl hp⟩
      · by_cases hb1 : b = '1'
        · subst hb1
          simp [decodeSym, hb0] at h
          obtain ⟨p, rfl, hp⟩ := ih1 bs c rest h
          exact ⟨'1' :: p, rfl, .nr hp⟩
        · simp [decodeSym, hb0, hb1] at h

theorem decodeLoop_sound :
    ∀ (fuel : Nat) (t : Node) (bits cs : List Char),
      decodeLoop t fuel bits = some cs → Decodes t bits cs := by
  intro fuel
  induction fuel with
  | zero =>
    intro t bits cs h
    match bits with
    | [] =>
      simp [decodeLoop] at h
      subst h
      exact .nil
    | b :: bs => simp [decodeLoop] at h
  | succ fuel ih =>
    intro t bits cs h
    match bits with
    | [] =>
      simp [decodeLoop] at h
      subst h
      exact .nil
    | b :: bs =>
      rw [decodeLoop] at h
      cases hsym : decodeSym t (b :: bs) with
      | none => rw [hsym] at h; cases h
      | some pr =>
        obtain ⟨c, rest1⟩ := pr
        rw [hsym] at h
        simp only at h
        cases hrec : decodeLoop t fuel rest1 with
        | none => rw [hrec] at h; cases h
        | some cs2 =>
          rw [hrec] at h
          simp only at h
          obtain ⟨p, heq, hp⟩ := decodeSym_leafPath t (b :: bs) c rest1 hsym
          cases h
          rw [heq]
          exact Decodes.cons hp (ih t rest1 cs2 hrec)

theorem leafPath_ne_nil {t : Node} {p : List Char} {c : Char}
    (h : LeafPath t p c) (hleaf : isLeaf t = false) : ∃ b p2, p = b :: p2 := by
  cases h with
  | leaf c => simp [isLeaf] at hleaf
  | n0 h => exact ⟨_, _, rfl⟩
  | n1 h => exact ⟨_, _, rfl⟩
  | nl h => exact ⟨_, _, rfl⟩
  | nr h => exact ⟨_, _, rfl⟩

theorem decodeLoop_complete {t : Node} {bits cs : List Char}
    (h : Decodes t bits cs) (hleaf : isLeaf t = false) :
    ∀ fuel, bits.length ≤ fuel → decodeLoop t fuel bits = some cs := by
  induction h with
  | nil =>
    intro fuel _
    cases fuel <;> rfl
  | @cons p c rest cs hp hd ih =>
    intro fuel hfuel
    obtain ⟨b, p2, rfl⟩ := leafPath_ne_nil hp hleaf
    match fuel with
    | 0 => simp at hfuel
    | fuel + 1 =>
      have hsym := leafPath_decodeSym hp rest
      have hrec : decodeLoop t fuel rest = some cs := by
        apply ih
        simp at hfuel
        omega
      rw [List.cons_append]
      rw [decodeLoop]
      rw [List.cons_append] at hsym
      rw [hsym]
      simp only
      rw [hrec]

theorem decodeRun_cases {t : Node} (bits : List Char) (hleaf : isLeaf t = false) :
    (∃ cs, Decodes t bits cs ∧ decodeLoopRun t bits = .ok cs) ∨
      ((¬ ∃ cs, Decodes t bits cs) ∧
        decodeLoopRun t bits = .error .malformedPayload) := by
  cases hdl : decodeLoop t bits.length bits with
  | some cs =>
    left
    exact ⟨cs, decodeLoop_sound _ _ _ _ hdl, by simp [decodeLoopRun, hdl]⟩
  | none =>
    right
    refine ⟨?_, by simp [decodeLoopRun, hdl]⟩
    rintro ⟨cs, hd⟩
    have := decodeLoop_complete hd hleaf bits.length (le_refl _)
    rw [this] at hdl
    cases hdl

theorem decodePayloadBits_eq {t : Node} (hleaf : isLeaf t = false)
    (bits : List Char) : decodePayloadBits t bits = decodeLoopRun t bits := by
  cases t with
  | leaf c => simp [isLeaf] at hleaf
  | node0 a => rfl
  | node1 b => rfl
  | node a b => rfl

theorem ser_length_pos (t : Node) : 1 ≤ (ser t).length := by
  cases t <;> simp [ser]

theorem parse_ser (t : Node) :
    ∀ (fuel : Nat) (rest : List Char), (ser t).length ≤ fuel →
      parseNode fuel (ser t ++ rest) = some (t, rest) := by
  induction t with
  | leaf c =>
    intro fuel rest h
    match fuel with
    | 0 => simp [ser] at h
    | fuel + 1 => simp [ser, parseNode]
  | node0 a ih =>
    intro fuel rest h
    match fuel with
    | 0 => simp [ser] at h
    | fuel + 1 =>
      have h2 : (ser a).length ≤ fuel := by simp [ser] at h; omega
      simp [ser, parseNode, ih fuel rest h2]
  | node1 b ih =>
    intro fuel rest h
    match fuel with
    | 0 => simp [ser] at h
    | fuel + 1 =>
      have h2 : (ser b).length ≤ fuel := by simp [ser] at h; omega
      simp [ser, parseNode, ih fuel rest h2]
  | node a b iha ihb =>
    intro fuel rest h
    match fuel with
    | 0 => simp [ser] at h
    | fuel + 1 =>
      have ha : (ser a).length ≤ fuel := by simp [ser] at h; omega
      have hb : (ser b).length ≤ fuel := by simp [ser] at h; omega
      have e1 : ser (Node.node a b) ++ rest = 'N' :: (ser a ++ (ser b ++ rest)) := by
        simp [ser]
      rw [e1]
      simp [parseNode, iha fuel (ser b ++ rest) ha, ihb fuel rest hb]

theorem toList_mk (l : List Char) : (String.mk l).toList = l := rfl

theorem mk_toList (s : String) : String.mk s.toList = s := by
  cases s
  rfl

theorem encode_eq {s : String} {t : Node}
    (h : createTree (getCharFrequencies s.toList) = .ok t) :
    encode s = .ok (String.mk (ser t ++ ';' ::
      s.toList.flatMap (fun c => (lookupTbl (codeTableFor t) c).getD []))) := by
  simp only [encode]
  rw [h]

theorem decode_mk (t : Node) (bits : List Char) :
    decode (String.mk (ser t ++ ';' :: bits)) =
      match decodePayloadBits t bits with
      | .ok cs => .ok (String.mk cs)
      | .error e => .error e := by
  have hp : parseNode (ser t ++ ';' :: bits).length (ser t ++ ';' :: bits) =
      some (t, ';' :: bits) := parse_ser t _ (';' :: bits) (by simp)
  simp only [decode, toList_mk]
  rw [hp]
  rfl

theorem flatMap_eq_map_of_singleton {α : Type} (f : α → List Char) (b : Char)
    (xs : List α) (h : ∀ c ∈ xs, f c = [b]) :
    xs.flatMap f = xs.map (fun _ => b) := by
  induction xs with
  | nil => rfl
  | cons x xs ih =>
    rw [List.flatMap_cons, h x (List.mem_cons_self _ _), List.map_cons,
      ih (fun c hc => h c (List.mem_cons_of_mem _ hc))]
    rfl

theorem decodes_flatMap {t : Node} :
    ∀ xs : List Char, (∀ c ∈ xs, ∃ p, lookupTbl (codesOf t) c = some p) →
      Decodes t (xs.flatMap (fun c => (lookupTbl (codesOf t) c).getD [])) xs := by
  intro xs
  induction xs with
  | nil => intro _; exact .nil
  | cons c xs ih =>
    intro h
    obtain ⟨p, hp⟩ := h c (List.mem_cons_self _ _)
    rw [List.flatMap_cons, hp]
    simp only [Option.getD_some]
    exact Decodes.cons (mem_codesOf_leafPath (lookupTbl_mem _ _ _ hp))
      (ih (fun d hd => h d (List.mem_cons_of_mem _ hd)))

theorem createTree_singleton (c : Char) (n : Nat) :
    createTree [(c, n)] = .ok (.leaf c) := rfl

theorem toList_ne_nil {s : String} (h : s ≠ "") : s.toList ≠ [] := by
  intro hl
  apply h
  have h2 := congrArg String.mk hl
  rw [mk_toList] at h2
  exact h2

/-- Claim C1: for every non-empty input string, `decode (encode s)`
recovers exactly `s`: encode counts frequencies, builds the tree, inverts
it to a code table and emits the serialized-tree/bit-string payload, and
decode reconstructs the tree from the payload and recovers the input. -/
theorem claim_C1 (s : String) (h : s ≠ "") :
    ∃ p, encode s = .ok p ∧ decode p = .ok s := by
  have hxs : s.toList ≠ [] := toList_ne_nil h
  have hmem : ∀ c ∈ s.toList, c ∈ (getCharFrequencies s.toList).map Prod.fst :=
    fun c hc => mem_keys_getCharFrequencies hc
  cases hsplit : getCharFrequencies s.toList with
  | nil => exact absurd hsplit (getCharFrequencies_ne_nil hxs)
  | cons e1 freq1 =>
    cases freq1 with
    | nil =>
      obtain ⟨c0, n0⟩ := e1
      have ht : createTree (getCharFrequencies s.toList) = .ok (.leaf c0) := by
        rw [hsplit]
        exact createTree_singleton c0 n0
      have hall : ∀ c ∈ s.toList, c = c0 := by
        intro c hc
        have h2 := hmem c hc
        rw [hsplit] at h2
        simpa using h2
      have htbl : ∀ c ∈ s.toList,
          (lookupTbl (codeTableFor (Node.leaf c0)) c).getD [] = ['0'] := by
        intro c hc
        rw [hall c hc]
        simp [codeTableFor, lookupTbl]
      have hbits : s.toList.flatMap
            (fun c => (lookupTbl (codeTableFor (Node.leaf c0)) c).getD []) =
          s.toList.map (fun _ => '0') :=
        flatMap_eq_map_of_singleton _ '0' _ htbl
      refine ⟨_, encode_eq ht, ?_⟩
      rw [hbits, decode_mk]
      have hallzero : (s.toList.map (fun _ => '0')).all (fun b => b == '0') = true := by
        simp [List.all_eq_true]
      have hdec : decodePayloadBits (Node.leaf c0) (s.toList.map (fun _ => '0')) =
          .ok s.toList := by
        simp only [decodePayloadBits, hallzero, if_true]
        rw [List.map_map]
        congr 1
        exact (List.map_congr_left fun c hc => (hall c hc).symm).trans (List.map_id _)
      rw [hdec]
      show Except.ok (String.mk s.toList) = Except.ok s
      rw [mk_toList]
    | cons e2 freq2 =>
      have hfne : getCharFrequencies s.toList ≠ [] := by rw [hsplit]; simp
      obtain ⟨t, ht, hperm⟩ := createTree_ok hfne
      obtain ⟨a, b, rfl⟩ := createTree_node (by rw [hsplit]; simp) ht
      have hmemsyms : ∀ c ∈ s.toList, c ∈ syms (Node.node a b) := by
        intro c hc
        exact hperm.mem_iff.mpr (hmem c hc)
      have htbl : codeTableFor (Node.node a b) = codesOf (Node.node a b) := by
        rw [codeTableFor, invertTree_eq]
      have hlook : ∀ c ∈ s.toList,
          ∃ p, lookupTbl (codesOf (Node.node a b)) c = some p := by
        intro c hc
        apply lookupTbl_isSome
        rw [keys_codesOf]
        exact hmemsyms c hc
      have hdecodes : Decodes (Node.node a b)
          (s.toList.flatMap (fun c =>
            (lookupTbl (codesOf (Node.node a b)) c).getD [])) s.toList :=
        decodes_flatMap _ hlook
      refine ⟨_, encode_eq ht, ?_⟩
      rw [htbl, decode_mk]
      have hleaf : isLeaf (Node.node a b) = false := rfl
      have hloop := decodeLoop_complete hdecodes hleaf _ (le_refl _)
      have hrun : decodeLoopRun (Node.node a b)
          (s.toList.flatMap (fun c =>
            (lookupTbl (codesOf (Node.node a b)) c).getD [])) = .ok s.toList := by
        rw [decodeLoopRun, hloop]
      rw [decodePayloadBits_eq hleaf, hrun]
      show Except.ok (String.mk s.toList) = Except.ok s
      rw [mk_toList]

theorem foldl_bump_replicate (c : Char) :
    ∀ (n k : Nat), (List.replicate n c).foldl bump [(c, k)] = [(c, k + n)] := by
  intro n
  induction n with
  | zero => intro k; simp
  | succ n ih =>
    intro k
    rw [List.replicate_succ, List.foldl_cons]
    have hb : bump [(c, k)] c = [(c, k + 1)] := by simp [bump]
    rw [hb, ih]
    have he : k + 1 + n = k + (n + 1) := by omega
    rw [he]

theorem getCharFrequencies_replicate (c : Char) (n : Nat) (h : 0 < n) :
    getCharFrequencies (List.replicate n c) = [(c, n)] := by
  obtain ⟨m, rfl⟩ : ∃ m, n = m + 1 := ⟨n - 1, by omega⟩
  rw [getCharFrequencies, List.replicate_succ, List.foldl_cons]
  have hb : bump [] c = [(c, 1)] := rfl
  rw [hb, foldl_bump_replicate]
  have he : 1 + m = m + 1 := by omega
  rw [he]

/-- Claim C1 witness: the round trip evaluated at the concrete input
string of the source test suite. -/
theorem claim_C1_witness : ∃ p, encode "foo" = .ok p ∧ decode p = .ok "foo" :=
  claim_C1 "foo" (by decide)

/-- Claim C2: for every non-empty frequency table with unique symbols,
the code table obtained by inverting the tree built from it carries
exactly the table's symbols, exactly one code per symbol, and no code in
the table is a prefix of a different code (prefix-free). -/
theorem claim_C2 (entries : List (Char × Nat)) (hne : entries ≠ [])
    (hnd : (entries.map Prod.fst).Nodup) :
    ∃ t, createTree entries = .ok t ∧
      ((invertTree t).map Prod.fst).Perm (entries.map Prod.fst) ∧
      (∀ c ∈ entries.map Prod.fst, ((invertTree t).map Prod.fst).count c = 1) ∧
      List.Pairwise (fun e1 e2 : Char × List Char =>
        e1.2.isPrefixOf e2.2 = false ∧ e2.2.isPrefixOf e1.2 = false)
        (invertTree t) := by
  obtain ⟨t, ht, hperm⟩ := createTree_ok hne
  have hktree : (invertTree t).map Prod.fst = syms t := by
    rw [invertTree_eq, keys_codesOf]
  refine ⟨t, ht, ?_, ?_, ?_⟩
  · rw [hktree]
    exact hperm
  · intro c hc
    rw [hktree, hperm.count_eq]
    exact List.count_eq_one_of_mem hnd hc
  · rw [invertTree_eq]
    exact codesOf_pairwise t

/-- Claim C2 witness: the invariant evaluated at a concrete two-symbol
frequency table. -/
theorem claim_C2_witness :
    ∃ t, createTree ([('a', 1), ('b', 2)] : List (Char × Nat)) = .ok t ∧
      ((invertTree t).map Prod.fst).Perm
        (([('a', 1), ('b', 2)] : List (Char × Nat)).map Prod.fst) ∧
      (∀ c ∈ (([('a', 1), ('b', 2)] : List (Char × Nat)).map Prod.fst),
        ((invertTree t).map Prod.fst).count c = 1) ∧
      List.Pairwise (fun e1 e2 : Char × List Char =>
        e1.2.isPrefixOf e2.2 = false ∧ e2.2.isPrefixOf e1.2 = false)
        (invertTree t) :=
  claim_C2 [('a', 1), ('b', 2)] (by decide) (by decide)

/-- Claim C3: the tree builder merges the two smallest-weight nodes,
stable by insertion order, the lower-weight node becoming child `0`; on
the fixture entries of the source test it returns exactly the tree the
test expects. -/
theorem claim_C3 :
    createTree [('a', 1), ('b', 2), ('c', 3)] =
      .ok (.node (.leaf 'c') (.node (.leaf 'a') (.leaf 'b'))) ∧
    (∀ (l : List (Node × Nat)) (m : Node × Nat) (rest : List (Node × Nat)),
      popMin l = some (m, rest) → (∀ e ∈ l, m.2 ≤ e.2) ∧ l.Perm (m :: rest)) := by
  refine ⟨by rfl, ?_⟩
  intro l m rest h
  exact ⟨popMin_min h, popMin_perm h⟩

/-- Claim C3 witness: the selection property evaluated on a concrete
worklist. -/
theorem claim_C3_witness :
    popMin [(Node.leaf 'a', 1), (Node.leaf 'b', 2)] =
      some ((Node.leaf 'a', 1), [(Node.leaf 'b', 2)]) ∧
    (∀ e ∈ [(Node.leaf 'a', 1), (Node.leaf 'b', 2)],
      (Node.leaf 'a', (1 : Nat)).2 ≤ e.2) ∧
    List.Perm [(Node.leaf 'a', 1), (Node.leaf 'b', 2)]
      ((Node.leaf 'a', 1) :: [(Node.leaf 'b', 2)]) := by
  have h := claim_C3.2 [(Node.leaf 'a', 1), (Node.leaf 'b', 2)]
    (Node.leaf 'a', 1) [(Node.leaf 'b', 2)] (by rfl)
  exact ⟨by rfl, h.1, h.2⟩

/-- Claim C4: `encode "foo"` returns the serialized tree, the `;`
separator, and the bit-string `011`; the separator does not occur in the
tree part, so the portion after `;` is exactly `011`, as the source test
asserts. -/
theorem claim_C4 :
    encode "foo" =
      .ok (String.mk (['N', 'L', 'f', 'L', 'o'] ++ ';' :: ['0', '1', '1'])) ∧
    ';' ∉ ['N', 'L', 'f', 'L', 'o'] :=
  ⟨rfl, by decide⟩

/-- Claim C5: `invertTree` of the fixture tree of the source test (an
internal node with a single child `0` on the left, and leaves `b`, `c`
on the right) yields codes `a ↦ 00`, `b ↦ 10`, `c ↦ 11`. -/
theorem claim_C5 :
    invertTree (.node (.node0 (.leaf 'a')) (.node (.leaf 'b') (.leaf 'c'))) =
      [('a', ['0', '0']), ('b', ['1', '0']), ('c', ['1', '1'])] := rfl

/-- Claim C6: the frequency counter maps each symbol to its number of
occurrences; on the test fixture it returns `f ↦ 1, o ↦ 2`, and on the
empty sequence it returns the empty table. -/
theorem claim_C6 :
    (∀ (xs : List Char) (c : Char), freqOf (getCharFrequencies xs) c = xs.count c) ∧
    getCharFrequencies "foo".toList = [('f', 1), ('o', 2)] ∧
    getCharFrequencies [] = [] :=
  ⟨freqOf_getCharFrequencies, rfl, rfl⟩

/-- Claim C7 counterexample: the frequency counter does not raise on an
empty sequence — it is total and returns the empty table (spec section
4.1), refuting the part of the claim that says `count` raises
`EmptyInputError` for the empty sequence. -/
theorem claim_C7_cex : getCharFrequencies [] = [] := rfl

/-- Claim C7 (amended): the frequency counter returns an empty table for
an empty sequence; `EmptyInputError` is raised when the tree builder
receives an empty table; and `encode ""` consistently raises that same
error (through the tree builder). -/
theorem claim_C7 :
    getCharFrequencies [] = [] ∧
    createTree [] = .error .emptyInput ∧
    encode "" = .error .emptyInput :=
  ⟨rfl, rfl, rfl⟩

/-- Claim C8: for a payload carrying a serialized internal-rooted tree
and a bit-string, decode raises `MalformedPayloadError` exactly when the
bit-string does not decompose completely into root-to-leaf paths of the
tree (exhausted mid-path or unmatchable bits); otherwise it returns the
full decoded string, never a partial result. -/
theorem claim_C8 (t : Node) (bits : List Char) (hleaf : isLeaf t = false) :
    (∃ cs, Decodes t bits cs ∧
      decode (String.mk (ser t ++ ';' :: bits)) = .ok (String.mk cs)) ∨
    ((¬ ∃ cs, Decodes t bits cs) ∧
      decode (String.mk (ser t ++ ';' :: bits)) = .error .malformedPayload) := by
  rw [decode_mk]
  rcases decodeRun_cases bits hleaf with ⟨cs, hd, hr⟩ | ⟨hn, hr⟩
  · left
    refine ⟨cs, hd, ?_⟩
    rw [decodePayloadBits_eq hleaf, hr]
  · right
    refine ⟨hn, ?_⟩
    rw [decodePayloadBits_eq hleaf, hr]

/-- Claim C8 witness: the dichotomy evaluated at a concrete tree and
bit-string. -/
theorem claim_C8_witness :
    (∃ cs, Decodes (Node.node (.leaf 'a') (.leaf 'b')) ['0', '1'] cs ∧
      decode (String.mk (ser (Node.node (.leaf 'a') (.leaf 'b')) ++ ';' :: ['0', '1'])) =
        .ok (String.mk cs)) ∨
    ((¬ ∃ cs, Decodes (Node.node (.leaf 'a') (.leaf 'b')) ['0', '1'] cs) ∧
      decode (String.mk (ser (Node.node (.leaf 'a') (.leaf 'b')) ++ ';' :: ['0', '1'])) =
        .error .malformedPayload) :=
  claim_C8 (Node.node (.leaf 'a') (.leaf 'b')) ['0', '1'] rfl

/-- Claim C9: a single-symbol table builds to a lone leaf root, the
encoder special-cases it to a one-bit code `0`, and the resulting
payload decodes back to the input — no zero-length code is assigned. -/
theorem claim_C9 (c : Char) (n : Nat) (h : 0 < n) :
    getCharFrequencies (List.replicate n c) = [(c, n)] ∧
    createTree [(c, n)] = .ok (.leaf c) ∧
    codeTableFor (.leaf c) = [(c, ['0'])] ∧
    encode (String.mk (List.replicate n c)) =
      .ok (String.mk (ser (.leaf c) ++ ';' :: List.replicate n '0')) ∧
    decode (String.mk (ser (.leaf c) ++ ';' :: List.replicate n '0')) =
      .ok (String.mk (List.replicate n c)) := by
  have hfreq := getCharFrequencies_replicate c n h
  have ht : createTree (getCharFrequencies (String.mk (List.replicate n c)).toList) =
      .ok (.leaf c) := by
    rw [toList_mk, hfreq]
    exact createTree_singleton c n
  refine ⟨hfreq, createTree_singleton c n, rfl, ?_, ?_⟩
  · rw [encode_eq ht, toList_mk]
    have hb : (List.replicate n c).flatMap
        (fun x => (lookupTbl (codeTableFor (Node.leaf c)) x).getD []) =
        List.replicate n '0' := by
      rw [flatMap_eq_map_of_singleton _ '0' _ ?_]
      · rw [List.map_replicate]
      · intro x hx
        rw [List.eq_of_mem_replicate hx]
        simp [codeTableFor, lookupTbl]
    rw [hb]
  · rw [decode_mk]
    have hz : (List.replicate n '0').all (fun b => b == '0') = true := by
      simp [List.all_eq_true, List.eq_of_mem_replicate]
    have hdec : decodePayloadBits (Node.leaf c) (List.replicate n '0') =
        .ok (List.replicate n c) := by
      simp only [decodePayloadBits, hz, if_true]
      rw [List.map_replicate]
    rw [hdec]

/-- Claim C9 witness: the single-symbol special case at a concrete
symbol and length. -/
theorem claim_C9_witness :
    getCharFrequencies (List.replicate 3 'a') = [('a', 3)] ∧
    createTree [('a', 3)] = .ok (.leaf 'a') ∧
    codeTableFor (.leaf 'a') = [('a', ['0'])] ∧
    encode (String.mk (List.replicate 3 'a')) =
      .ok (String.mk (ser (.leaf 'a') ++ ';' :: List.replicate 3 '0')) ∧
    decode (String.mk (ser (.leaf 'a') ++ ';' :: List.replicate 3 '0')) =
      .ok (String.mk (List.replicate 3 'a')) :=
  claim_C9 'a' 3 (by decide)

/-- Claim C10: `convertToArray` of the fixture tree of the source test
returns one inner list per depth-1 subtree of the root, listing that
subtree's leaves in traversal order. -/
theorem claim_C10 :
    convertToArray (.node (.node0 (.leaf 'a')) (.node (.leaf 'b') (.leaf 'c'))) =
      [['a'], ['b', 'c']] := rfl

end Huffman
